import Mathlib

/-!
Verification of the mevis repository's filtering, conversion, inspection and
io modules, as a shallow embedding in Lean 4.

Atoms of an OpenCog AtomSpace are modelled as natural-number identities.
Their attributes (`.name`, `.type_name`, `.type`, `.is_node()`, `.out`,
`.incoming`) are packaged in a structure of functions `ASData`, which plays
the role of the adjacency/attribute information that the underlying store
provides.  Python sets are modelled as duplicate-free lists built by
insertion (`setAdd` / `setUpdate`); claims only ever speak about membership,
which is insensitive to the unspecified iteration order of a Python set.
The unbounded while-loops of `_dfs_out` / `_dfs_in` are modelled with
explicit fuel, returning `Option` (`none` = the loop has not finished
within the given fuel); termination is then the statement that some fuel
suffices.
-/

namespace Mevis

/-- Attribute and adjacency data of the atoms of an AtomSpace.
`out a` models `a.out` (the outgoing set of a Link),
`incoming a` models `a.incoming` (the Links that point at `a`),
`isNode a` models `a.is_node()` (in OpenCog every Atom is a Node or a Link,
exclusively), `name`, `typeName` and `typ` model `.name`, `.type_name` and
`int(.type)`. -/
structure ASData where
  name : Nat → String
  typeName : Nat → String
  typ : Nat → Int
  isNode : Nat → Bool
  out : Nat → List Nat
  incoming : Nat → List Nat

/-- `atom.is_link()`: an Atom is a Link exactly when it is not a Node. -/
def is_link (E : ASData) (a : Nat) : Bool :=
  !(E.isNode a)

/-- Python `set.add`: append an element to a duplicate-free list unless present. -/
def setAdd (s : List Nat) (x : Nat) : List Nat :=
  if x ∈ s then s else s ++ [x]

/-- Python `set.update` / `set.union`: add each element of a list in turn. -/
def setUpdate (s : List Nat) (xs : List Nat) : List Nat :=
  xs.foldl setAdd s

/-- One round of the expansion loop body of `_expand` for context `in` / `out`:
`expansion = set(); for atom in atoms: expansion.add(atom); expansion.update(nbr(atom))`. -/
def expandStep (nbr : Nat → List Nat) (atoms : List Nat) : List Nat :=
  atoms.foldl (fun exp a => setUpdate (setAdd exp a) (nbr a)) []

/-- One round of the expansion loop body of `_expand` for context `both`:
the expansion is updated with `atom.incoming` and then with `atom.out`. -/
def expandStepBoth (E : ASData) (atoms : List Nat) : List Nat :=
  atoms.foldl (fun exp a => setUpdate (setUpdate (setAdd exp a) (E.incoming a)) (E.out a)) []

/-- The `for _ in range(context_size)` loop of `_expand` for `in` / `out`. -/
def expandIter (nbr : Nat → List Nat) : Nat → List Nat → List Nat
  | 0, atoms => atoms
  | k + 1, atoms => expandIter nbr k (expandStep nbr atoms)

/-- The `for _ in range(context_size)` loop of `_expand` for `both`. -/
def expandIterBoth (E : ASData) : Nat → List Nat → List Nat
  | 0, atoms => atoms
  | k + 1, atoms => expandIterBoth E k (expandStepBoth E atoms)

/-- `x` is within distance `n` of `a`, following steps given by `nbr`:
there is a walk of length at most `n` from `a` to `x`. -/
inductive WithinDist (nbr : Nat → List Nat) : Nat → Nat → Nat → Prop
  | refl (n a : Nat) : WithinDist nbr n a a
  | step {n a b x : Nat} : b ∈ nbr a → WithinDist nbr n b x → WithinDist nbr (n + 1) a x

/-- The one-step relation of a traversal: from `u` one step reaches the members of `nbr u`. -/
def stepRel (nbr : Nat → List Nat) : Nat → Nat → Prop :=
  fun u v => v ∈ nbr u

/-- `x` is reachable from `a`: reflexive-transitive closure of the step relation. -/
def Reach (nbr : Nat → List Nat) (a x : Nat) : Prop :=
  Relation.ReflTransGen (stepRel nbr) a x

/-- The while-loop shared by `_dfs_out` and `_dfs_in`, with explicit fuel:
`while stack: atom = stack.pop(0); atoms.append(atom); stack[0:0] = nbr(atom)`.
`none` means the loop has not finished within `fuel` iterations. -/
def dfsLoop (nbr : Nat → List Nat) : Nat → List Nat → List Nat → Option (List Nat)
  | _, atoms, [] => some atoms
  | 0, _, _ :: _ => none
  | fuel + 1, atoms, a :: stack => dfsLoop nbr fuel (atoms ++ [a]) (nbr a ++ stack)

/-- `_dfs_out`: `atoms = [atom]; stack = list(atom.out)`, then the while-loop. -/
def dfs_out (E : ASData) (fuel : Nat) (atom : Nat) : Option (List Nat) :=
  dfsLoop E.out fuel [atom] (E.out atom)

/-- `_dfs_in`: `atoms = [atom]; stack = list(atom.incoming)`, then the while-loop. -/
def dfs_in (E : ASData) (fuel : Nat) (atom : Nat) : Option (List Nat) :=
  dfsLoop E.incoming fuel [atom] (E.incoming atom)

/-- The stacks from which the DFS while-loop finishes after finitely many iterations. -/
inductive DfsTerm (nbr : Nat → List Nat) : List Nat → Prop
  | nil : DfsTerm nbr []
  | cons {a : Nat} {stack : List Nat} : DfsTerm nbr (nbr a ++ stack) → DfsTerm nbr (a :: stack)

/-- The `in-tree` / `out-tree` branch of `_expand`:
`expansion = set(); for atom in atoms: expansion = expansion.union(dfs(atom))`,
then `atoms = list(expansion)`.  `dfs` is `_dfs_in` or `_dfs_out`;
the whole expansion fails (`none`) as soon as one DFS does not finish. -/
def treeExpand (dfs : Nat → Option (List Nat)) : List Nat → List Nat → Option (List Nat)
  | exp, [] => some exp
  | exp, a :: rest =>
    match dfs a with
    | none => none
    | some l => treeExpand dfs (setUpdate exp l) rest

/-- An element of a `list` target: a `str`, an `int` Atom type, or an Atom. -/
inductive TElem
  | strv (s : String)
  | intv (i : Int)
  | atomv (a : Nat)
deriving DecidableEq

/-- The `target` argument of `filter`: `str`, `int`, `Atom`, `list` or `Callable`. -/
inductive Target
  | strv (s : String)
  | intv (i : Int)
  | atomv (a : Nat)
  | listv (l : List TElem)
  | func (f : Nat → Bool)

/-- `x.lower() if isinstance(x, str) else x`, applied to a list-target element. -/
def lowerElem : TElem → TElem
  | .strv s => .strv s.toLower
  | x => x

/-- `_prepare_filter_func`: create a filter function depending on the type of
the given target: a `str` matches `.name` or `.type_name` with capitalization
ignored (both sides lowered), an `int` matches `int(.type)`, a `list` matches
name, type name, type, or the atom itself against the lowered element set,
and a `Callable` is used as it is.  `filter` never calls this on an `Atom`
target, which it handles separately. -/
def prepare_filter_func (E : ASData) : Target → Nat → Bool
  | .strv s => fun atom =>
      decide ((E.name atom).toLower = s.toLower) ||
      decide ((E.typeName atom).toLower = s.toLower)
  | .intv i => fun atom => decide (E.typ atom = i)
  | .listv l => fun atom =>
      decide (TElem.strv ((E.typeName atom).toLower) ∈ l.map lowerElem) ||
      decide (TElem.strv ((E.name atom).toLower) ∈ l.map lowerElem) ||
      decide (TElem.intv (E.typ atom) ∈ l.map lowerElem) ||
      decide (TElem.atomv atom ∈ l.map lowerElem)
  | .func f => f
  | .atomv _ => fun _ => false

/-- Lines 156-161 of `filter`: an `Atom` target is selected as it is, any
other target becomes a predicate applied to the given atoms. -/
def selectedAtoms (E : ASData) (given : List Nat) : Target → List Nat
  | .atomv a => [a]
  | t => given.filter (prepare_filter_func E t)

/-- `_expand`: expand a list of atoms depending on the context.  `context`
and `context_size` are the values produced by the argument processing of
`filter` (a plain string context has size 1); `fuel` bounds the unbounded
DFS loops of the tree contexts; an unknown context leaves the atoms as they
are, like the source's if/elif chain. -/
def expand (E : ASData) (atoms : List Nat) (context : String) (context_size fuel : Nat) :
    Option (List Nat) :=
  if context = "in" then some (expandIter E.incoming context_size atoms)
  else if context = "out" then some (expandIter E.out context_size atoms)
  else if context = "both" then some (expandIterBoth E context_size atoms)
  else if context = "in-tree" then treeExpand (dfs_in E fuel) [] atoms
  else if context = "out-tree" then treeExpand (dfs_out E fuel) [] atoms
  else some atoms

/-- `_include_or_exclude`: mode `exclude` returns the given atoms that are
not in the selection, mode `include` the selection itself. -/
def include_or_exclude (selected given : List Nat) (mode : String) : List Nat :=
  if mode = "exclude" then given.filter (fun atom => decide (atom ∉ selected)) else selected

/-- `filter` after its argument processing: select by target, expand by
context, then include or exclude.  `fuel` bounds the DFS of tree contexts;
the call fails (`none`) exactly when such a DFS does not finish. -/
def filter (E : ASData) (given : List Nat) (target : Target) (context : String)
    (size fuel : Nat) (mode : String) : Option (List Nat) :=
  match expand E (selectedAtoms E given target) context size fuel with
  | none => none
  | some expanded => some (include_or_exclude expanded given mode)

/-- The three bounded context directions `in`, `out`, `both`. -/
inductive BDir
  | din
  | dout
  | dboth

/-- The context string of a bounded direction. -/
def bstr : BDir → String
  | .din => "in"
  | .dout => "out"
  | .dboth => "both"

/-- The neighbor function a bounded context steps along: incoming edges for
`in`, outgoing edges for `out`, both mixed for `both`. -/
def bnbr (E : ASData) : BDir → Nat → List Nat
  | .din => E.incoming
  | .dout => E.out
  | .dboth => fun a => E.incoming a ++ E.out a

/-- The two tree context directions `in-tree`, `out-tree`. -/
inductive TDir
  | tin
  | tout

/-- The context string of a tree direction. -/
def tstr : TDir → String
  | .tin => "in-tree"
  | .tout => "out-tree"

/-- The edge direction a tree context follows. -/
def tnbr (E : ASData) : TDir → Nat → List Nat
  | .tin => E.incoming
  | .tout => E.out

/-- The DFS routine a tree context runs (`_dfs_in` or `_dfs_out`). -/
def tdfs (E : ASData) (fuel : Nat) : TDir → Nat → Option (List Nat)
  | .tin => dfs_in E fuel
  | .tout => dfs_out E fuel

/-- Spec wording of C10: two strings compare equal ignoring case. -/
def ciEq (x y : String) : Prop :=
  x.toLower = y.toLower

/-- Spec wording of C10: a list-target element matches an atom by
case-insensitive name or type name, by integer type, or by being the atom. -/
def elemMatches (E : ASData) (x : TElem) (atom : Nat) : Prop :=
  match x with
  | .strv s => ciEq (E.name atom) s ∨ ciEq (E.typeName atom) s
  | .intv i => E.typ atom = i
  | .atomv b => atom = b

/-- `to_uid`: `atom.id_string()`; id strings are one per Atom, so the uid is
modelled as the atom's identity. -/
def to_uid (atom : Nat) : Nat :=
  atom

/-- A NetworkX graph as built by `convert`: a node list and a directed edge
list, both duplicate-free.  The visual attribute dictionaries attached to
nodes and edges do not influence which nodes and edges exist, so they are
not modelled. -/
structure NXGraph where
  nodes : List Nat
  edges : List (Nat × Nat)

/-- `graph.add_node`: a repeated node is not duplicated. -/
def addNode (g : NXGraph) (u : Nat) : NXGraph :=
  if u ∈ g.nodes then g else ⟨g.nodes ++ [u], g.edges⟩

/-- `graph.add_edge` on a DiGraph: missing endpoints are added as nodes,
a repeated edge is not duplicated. -/
def addEdge (g : NXGraph) (u v : Nat) : NXGraph :=
  let g2 := addNode (addNode g u) v
  if (u, v) ∈ g2.edges then g2 else ⟨g2.nodes, g2.edges ++ [(u, v)]⟩

/-- Step 2 of `convert` for one atom: if it is a Link, add an edge from each
incoming atom and an edge to each outgoing atom, in both cases only if the
other endpoint's uid is already a node of the graph. -/
def addLinkEdges (E : ASData) (g : NXGraph) (atom : Nat) : NXGraph :=
  if is_link E atom then
    let g1 := (E.incoming atom).foldl
      (fun gg atom2 =>
        if to_uid atom2 ∈ gg.nodes then addEdge gg (to_uid atom2) (to_uid atom) else gg) g
    (E.out atom).foldl
      (fun gg atom2 =>
        if to_uid atom2 ∈ gg.nodes then addEdge gg (to_uid atom) (to_uid atom2) else gg) g1
  else g

/-- The graph construction of `convert`: one node per atom uid, then the
edges of each Link. -/
def convert (E : ASData) (data : List Nat) : NXGraph :=
  let g1 := data.foldl (fun g atom => addNode g (to_uid atom)) ⟨[], []⟩
  data.foldl (addLinkEdges E) g1

/-- The per-type counting dictionary of `inspect_atomspace`:
`num_types[key] += 1`, with `num_types[key] = 1` on `KeyError`. -/
def bumpType : List (String × Nat) → String → List (String × Nat)
  | [], key => [(key, 1)]
  | (k, v) :: rest, key =>
      if k = key then (k, v + 1) :: rest else (k, v) :: bumpType rest key

/-- The counting loop of the `count_details=True` branch of
`inspect_atomspace`: node count, link count and per-type counts. -/
def inspectLoop (E : ASData) :
    List Nat → Nat × Nat × List (String × Nat) → Nat × Nat × List (String × Nat)
  | [], acc => acc
  | atom :: rest, (numNodes, numLinks, numTypes) =>
      if E.isNode atom then
        inspectLoop E rest (numNodes + 1, numLinks, bumpType numTypes (E.typeName atom))
      else
        inspectLoop E rest (numNodes, numLinks + 1, bumpType numTypes (E.typeName atom))

/-- The counting loop of the `count_details=False` branch of
`inspect_atomspace`: node count and link count only. -/
def inspectCountLoop (E : ASData) : List Nat → Nat × Nat → Nat × Nat
  | [], acc => acc
  | atom :: rest, (numNodes, numLinks) =>
      if E.isNode atom then inspectCountLoop E rest (numNodes + 1, numLinks)
      else inspectCountLoop E rest (numNodes, numLinks + 1)

/-- The result dictionary of `inspect_atomspace`: counts of atoms, nodes and
links, and with `count_details=True` also the per-type counts. -/
structure AtomCounts where
  atoms : Nat
  nodes : Nat
  links : Nat
  types : Option (List (String × Nat))

/-- `inspect_atomspace`: count nodes and links (and with details the types),
then combine with `atoms = num_nodes + num_links`. -/
def inspect_atomspace (E : ASData) (data : List Nat) (count_details : Bool) : AtomCounts :=
  if count_details then
    let acc := inspectLoop E data (0, 0, [])
    ⟨acc.1 + acc.2.1, acc.1, acc.2.1, some acc.2.2⟩
  else
    let acc := inspectCountLoop E data (0, 0)
    ⟨acc.1 + acc.2, acc.1, acc.2, none⟩

/-- `inspect` on an AtomSpace or list of Atoms dispatches to
`inspect_atomspace` (the graph branch is a separate code path). -/
def inspect (E : ASData) (data : List Nat) (count_details : Bool) : AtomCounts :=
  inspect_atomspace E data count_details

/-- Errors raised by the modelled fragments. -/
inductive PyErr
  | valueError (msg : String)
  | typeError (msg : String)
  | fileExists
deriving DecidableEq

/-- Modelled from the spec: `check_arg` lives in `args.py`, which is absent
from the sources; per the spec it is straightforward argument validation, so
a value outside the allowed ones raises a ValueError naming the argument. -/
def check_arg_value (value : String) (allowed : List String) : Except PyErr Unit :=
  if value ∈ allowed then .ok () else
    .error (.valueError ("Argument got an invalid value: " ++ value))

/-- `check_if_file_exists`: raise `FileExistsError` if there is a file at
the given filepath.  The file system is modelled as a map from paths to
contents. -/
def check_if_file_exists (fs : String → Option String) (filepath : String) :
    Except PyErr Unit :=
  if (fs filepath).isSome then .error .fileExists else .ok ()

/-- `store`, state-passing over the modelled file system: validate the
method, then (unless `overwrite`) fail if the file exists, and only then
export.  `content` stands for the Atomese text the external persistence
layer writes.  The result is the pair (outcome, file system after the call). -/
def store (fs : String → Option String) (content filepath method : String)
    (overwrite : Bool) : Except PyErr Unit × (String → Option String) :=
  match check_arg_value method ["basic", "file-storage-node"] with
  | .error e => (.error e, fs)
  | .ok _ =>
    if overwrite = false then
      match check_if_file_exists fs filepath with
      | .error e => (.error e, fs)
      | .ok _ => (.ok (), fun p => if p = filepath then some content else fs p)
    else (.ok (), fun p => if p = filepath then some content else fs p)

/-- A Python value passed as the `context` argument of `filter`. -/
inductive PyVal
  | strv (s : String)
  | intv (i : Int)
  | tupv (xs : List PyVal)

/-- The ValueError message of an invalid context tuple. -/
def invalidTupleMsg : String :=
  "Argument \"context\" got an invalid tuple as value."

/-- The ValueError message Python raises when `context, size = context`
unpacks a tuple whose length is not 2. -/
def unpackTwoMsg (n : Nat) : String :=
  if n < 2 then "not enough values to unpack (expected 2, got " ++ toString n ++ ")"
  else "too many values to unpack (expected 2)"

/-- Lines 141-150 of `filter` for a tuple context:
`context, size = context` raises a plain ValueError from tuple unpacking
when the length is not 2; then, inside try/except,
`check_arg(context, 'context', str, ['in', 'out', 'both'])`,
`check_arg(size, 'size', int)` and the `size < 0` check run, and every
failure among them is re-raised as a ValueError carrying `invalidTupleMsg`.
`check_arg` itself is absent from the sources; per the spec it is plain
argument validation raising on a wrong type or value, and any such failure
is wrapped by the except clause anyway. -/
def processContextTuple (xs : List PyVal) : Except PyErr (String × Int) :=
  match xs with
  | [c, n] =>
    match c, n with
    | .strv cs, .intv ni =>
        if cs = "in" ∨ cs = "out" ∨ cs = "both" then
          if ni < 0 then .error (.valueError invalidTupleMsg) else .ok (cs, ni)
        else .error (.valueError invalidTupleMsg)
    | _, _ => .error (.valueError invalidTupleMsg)
  | _ => .error (.valueError (unpackTwoMsg xs.length))

/-- A context tuple of the shape claim C9 calls valid: `(c, n)` with `c` one
of `in`, `out`, `both` and `n` an integer greater than or equal to zero. -/
def validContextTuple : PyVal → PyVal → Bool
  | .strv cs, .intv ni =>
      (decide (cs = "in") || decide (cs = "out") || decide (cs = "both")) && decide (0 ≤ ni)
  | _, _ => false

/-- The shape of every edge `convert` creates (spec wording of C6): it runs
between a Link atom of the input and the uid of an atom related to it by the
outgoing or incoming relation, and that uid also belongs to an input atom. -/
def edgeSpec (E : ASData) (data : List Nat) (e : Nat × Nat) : Prop :=
  ∃ l m, l ∈ data ∧ is_link E l = true ∧ (∃ b, b ∈ data ∧ to_uid b = to_uid m) ∧
    ((e.1 = to_uid l ∧ e.2 = to_uid m ∧ m ∈ E.out l) ∨
      (e.1 = to_uid m ∧ e.2 = to_uid l ∧ m ∈ E.incoming l))

/-- A tiny concrete AtomSpace for witnesses: atoms 0 and 1 are Nodes, atom 2
is a Link with outgoing set [0, 1], and 0 and 1 have 2 incoming. -/
def E1 : ASData where
  name := fun a => if a = 0 then "$1" else if a = 1 then "$2" else ""
  typeName := fun a => if a = 2 then "AndLink" else "PredicateNode"
  typ := fun a => if a = 2 then 10 else 3
  isNode := fun a => decide (a < 2)
  out := fun a => if a = 2 then [0, 1] else []
  incoming := fun a => if a < 2 then [2] else []


theorem mem_setAdd {s : List Nat} {x y : Nat} : y ∈ setAdd s x ↔ y ∈ s ∨ y = x := by
  unfold setAdd
  split
  · next h => constructor
              · exact fun hy => Or.inl hy
              · rintro (hy | rfl)
                · exact hy
                · exact h
  · simp [List.mem_append]

theorem mem_setUpdate {s xs : List Nat} {y : Nat} :
    y ∈ setUpdate s xs ↔ y ∈ s ∨ y ∈ xs := by
  induction xs generalizing s with
  | nil => simp [setUpdate]
  | cons x rest ih =>
      show y ∈ setUpdate (setAdd s x) rest ↔ _
      rw [ih, mem_setAdd]
      constructor
      · rintro ((h | rfl) | h)
        · exact Or.inl h
        · exact Or.inr (List.mem_cons_self _ _)
        · exact Or.inr (List.mem_cons_of_mem _ h)
      · rintro (h | h)
        · exact Or.inl (Or.inl h)
        · rcases List.mem_cons.mp h with rfl | h
          · exact Or.inl (Or.inr rfl)
          · exact Or.inr h

theorem setUpdate_append {s : List Nat} {l₁ l₂ : List Nat} :
    setUpdate s (l₁ ++ l₂) = setUpdate (setUpdate s l₁) l₂ :=
  List.foldl_append _ _ _ _

theorem expandStepBoth_eq (E : ASData) (atoms : List Nat) :
    expandStepBoth E atoms = expandStep (fun a => E.incoming a ++ E.out a) atoms := by
  unfold expandStepBoth expandStep
  congr 1
  funext exp a
  exact (setUpdate_append).symm

theorem expandIterBoth_eq (E : ASData) (n : Nat) (atoms : List Nat) :
    expandIterBoth E n atoms = expandIter (fun a => E.incoming a ++ E.out a) n atoms := by
  induction n generalizing atoms with
  | zero => rfl
  | succ k ih =>
      show expandIterBoth E k (expandStepBoth E atoms) = _
      rw [ih, expandStepBoth_eq]
      rfl

theorem mem_foldl_expand {nbr : Nat → List Nat} {atoms : List Nat} {init : List Nat} {x : Nat} :
    x ∈ atoms.foldl (fun exp a => setUpdate (setAdd exp a) (nbr a)) init ↔
      x ∈ init ∨ ∃ a ∈ atoms, x = a ∨ x ∈ nbr a := by
  induction atoms generalizing init with
  | nil => simp
  | cons a rest ih =>
      show x ∈ rest.foldl _ (setUpdate (setAdd init a) (nbr a)) ↔ _
      rw [ih]
      rw [mem_setUpdate, mem_setAdd]
      constructor
      · rintro (((h | h) | h) | ⟨b, hb, h⟩)
        · exact Or.inl h
        · exact Or.inr ⟨a, List.mem_cons_self _ _, Or.inl h⟩
        · exact Or.inr ⟨a, List.mem_cons_self _ _, Or.inr h⟩
        · exact Or.inr ⟨b, List.mem_cons_of_mem _ hb, h⟩
      · rintro (h | ⟨b, hb, h⟩)
        · exact Or.inl (Or.inl (Or.inl h))
        · rcases List.mem_cons.mp hb with rfl | hb
          · rcases h with h | h
            · exact Or.inl (Or.inl (Or.inr h))
            · exact Or.inl (Or.inr h)
          · exact Or.inr ⟨b, hb, h⟩

theorem mem_expandStep {nbr : Nat → List Nat} {atoms : List Nat} {x : Nat} :
    x ∈ expandStep nbr atoms ↔ ∃ a ∈ atoms, x = a ∨ x ∈ nbr a := by
  unfold expandStep
  rw [mem_foldl_expand]
  simp

theorem WithinDist.mono {nbr : Nat → List Nat} {n a x : Nat}
    (h : WithinDist nbr n a x) : WithinDist nbr (n + 1) a x := by
  induction h with
  | refl n a => exact WithinDist.refl _ _
  | step hb _ ih => exact WithinDist.step hb ih

theorem withinDist_inv {nbr : Nat → List Nat} {n a x : Nat} (h : WithinDist nbr n a x) :
    x = a ∨ ∃ m b, n = m + 1 ∧ b ∈ nbr a ∧ WithinDist nbr m b x := by
  cases h with
  | refl => exact Or.inl rfl
  | step hb hd => exact Or.inr ⟨_, _, rfl, hb, hd⟩

theorem mem_expandIter {nbr : Nat → List Nat} {n : Nat} {atoms : List Nat} {x : Nat} :
    x ∈ expandIter nbr n atoms ↔ ∃ a ∈ atoms, WithinDist nbr n a x := by
  induction n generalizing atoms with
  | zero =>
      constructor
      · exact fun h => ⟨x, h, WithinDist.refl _ _⟩
      · rintro ⟨a, ha, hd⟩
        rcases withinDist_inv hd with rfl | ⟨m, b, hm, _, _⟩
        · exact ha
        · exact absurd hm (by simp)
  | succ k ih =>
      show x ∈ expandIter nbr k (expandStep nbr atoms) ↔ _
      rw [ih]
      constructor
      · rintro ⟨a, ha, hd⟩
        rcases mem_expandStep.mp ha with ⟨b, hb, rfl | hnb⟩
        · exact ⟨a, hb, hd.mono⟩
        · exact ⟨b, hb, WithinDist.step hnb hd⟩
      · rintro ⟨a, ha, hd⟩
        rcases withinDist_inv hd with hxa | ⟨m, b, hm, hb, hd'⟩
        · refine ⟨a, mem_expandStep.mpr ⟨a, ha, Or.inl rfl⟩, ?_⟩
          rw [hxa]
          exact WithinDist.refl _ _
        · have hmk : m = k := by omega
          subst hmk
          exact ⟨b, mem_expandStep.mpr ⟨a, ha, Or.inr hb⟩, hd'⟩

theorem subset_expandIter {nbr : Nat → List Nat} {n : Nat} {atoms : List Nat} {x : Nat}
    (h : x ∈ atoms) : x ∈ expandIter nbr n atoms :=
  mem_expandIter.mpr ⟨x, h, WithinDist.refl _ _⟩

theorem dfsLoop_nil {nbr : Nat → List Nat} {fuel : Nat} {atoms : List Nat} :
    dfsLoop nbr fuel atoms [] = some atoms := by
  cases fuel <;> rfl

theorem dfsLoop_cons {nbr : Nat → List Nat} {fuel : Nat} {atoms : List Nat} {a : Nat}
    {stack : List Nat} :
    dfsLoop nbr (fuel + 1) atoms (a :: stack) = dfsLoop nbr fuel (atoms ++ [a]) (nbr a ++ stack) :=
  rfl

theorem dfsLoop_acc_subset {nbr : Nat → List Nat} :
    ∀ {fuel : Nat} {atoms stack res : List Nat}, dfsLoop nbr fuel atoms stack = some res →
      ∀ x ∈ atoms, x ∈ res := by
  intro fuel
  induction fuel with
  | zero =>
      intro atoms stack res h x hx
      cases stack with
      | nil => rw [dfsLoop_nil] at h; cases h; exact hx
      | cons a rest => cases h
  | succ n ih =>
      intro atoms stack res h x hx
      cases stack with
      | nil => rw [dfsLoop_nil] at h; cases h; exact hx
      | cons a rest =>
          rw [dfsLoop_cons] at h
          exact ih h x (List.mem_append_left _ hx)

theorem dfsLoop_complete {nbr : Nat → List Nat} :
    ∀ {fuel : Nat} {atoms stack res : List Nat}, dfsLoop nbr fuel atoms stack = some res →
      ∀ a ∈ stack, ∀ x, Reach nbr a x → x ∈ res := by
  intro fuel
  induction fuel with
  | zero =>
      intro atoms stack res h a ha x hr
      cases stack with
      | nil => cases ha
      | cons b rest => cases h
  | succ n ih =>
      intro atoms stack res h a ha x hr
      cases stack with
      | nil => cases ha
      | cons b rest =>
          rw [dfsLoop_cons] at h
          rcases List.mem_cons.mp ha with rfl | ha
          · rcases Relation.ReflTransGen.cases_head hr with rfl | ⟨c, hc, hcx⟩
            · exact dfsLoop_acc_subset h a (List.mem_append_right _ (List.mem_singleton.mpr rfl))
            · exact ih h c (List.mem_append_left _ hc) x hcx
          · exact ih h a (List.mem_append_right _ ha) x hr

theorem dfsLoop_sound {nbr : Nat → List Nat} :
    ∀ {fuel : Nat} {atoms stack res : List Nat}, dfsLoop nbr fuel atoms stack = some res →
      ∀ x ∈ res, x ∈ atoms ∨ ∃ a ∈ stack, Reach nbr a x := by
  intro fuel
  induction fuel with
  | zero =>
      intro atoms stack res h x hx
      cases stack with
      | nil => rw [dfsLoop_nil] at h; cases h; exact Or.inl hx
      | cons a rest => cases h
  | succ n ih =>
      intro atoms stack res h x hx
      cases stack with
      | nil => rw [dfsLoop_nil] at h; cases h; exact Or.inl hx
      | cons a rest =>
          rw [dfsLoop_cons] at h
          rcases ih h x hx with hx2 | ⟨b, hb, hr⟩
          · rcases List.mem_append.mp hx2 with hx3 | hx3
            · exact Or.inl hx3
            · rcases List.mem_singleton.mp hx3 with rfl
              exact Or.inr ⟨x, List.mem_cons_self _ _, Relation.ReflTransGen.refl⟩
          · rcases List.mem_append.mp hb with hb2 | hb2
            · exact Or.inr ⟨a, List.mem_cons_self _ _, Relation.ReflTransGen.head hb2 hr⟩
            · exact Or.inr ⟨b, List.mem_cons_of_mem _ hb2, hr⟩

theorem dfsTerm_fuel {nbr : Nat → List Nat} {stack : List Nat} (h : DfsTerm nbr stack) :
    ∃ fuel, ∀ atoms, ∃ res, dfsLoop nbr fuel atoms stack = some res := by
  induction h with
  | nil => exact ⟨0, fun atoms => ⟨atoms, dfsLoop_nil⟩⟩
  | cons _ ih =>
      rcases ih with ⟨f, hf⟩
      exact ⟨f + 1, fun atoms => (hf (atoms ++ [_])).imp (fun res hres => by
        rw [dfsLoop_cons]; exact hres)⟩

theorem dfsTerm_append {nbr : Nat → List Nat} {l rest : List Nat}
    (hl : ∀ a ∈ l, ∀ r, DfsTerm nbr r → DfsTerm nbr (a :: r)) (hrest : DfsTerm nbr rest) :
    DfsTerm nbr (l ++ rest) := by
  induction l with
  | nil => exact hrest
  | cons a l2 ih =>
      exact hl a (List.mem_cons_self _ _) (l2 ++ rest)
        (ih (fun b hb => hl b (List.mem_cons_of_mem _ hb)))

theorem dfsTerm_cons_of_acc {nbr : Nat → List Nat} {a : Nat}
    (hacc : Acc (fun v u => v ∈ nbr u) a) :
    ∀ rest, DfsTerm nbr rest → DfsTerm nbr (a :: rest) := by
  induction hacc with
  | intro a _ ih =>
      intro rest hrest
      exact DfsTerm.cons (dfsTerm_append (fun b hb => ih b hb) hrest)

theorem dfsTerm_of_wf {nbr : Nat → List Nat} (hwf : WellFounded (fun v u => v ∈ nbr u)) :
    ∀ stack, DfsTerm nbr stack := by
  intro stack
  induction stack with
  | nil => exact DfsTerm.nil
  | cons a rest ih => exact dfsTerm_cons_of_acc (hwf.apply a) rest ih

/-- Characterization of a finished DFS started at `a`:
the result holds exactly the atoms reachable from `a`. -/
theorem dfsLoop_start_char {nbr : Nat → List Nat} {fuel : Nat} {a : Nat} {l : List Nat}
    (h : dfsLoop nbr fuel [a] (nbr a) = some l) : ∀ x, x ∈ l ↔ Reach nbr a x := by
  intro x
  constructor
  · intro hx
    rcases dfsLoop_sound h x hx with hx2 | ⟨b, hb, hr⟩
    · rcases List.mem_singleton.mp hx2 with rfl
      exact Relation.ReflTransGen.refl
    · exact Relation.ReflTransGen.head hb hr
  · intro hr
    rcases Relation.ReflTransGen.cases_head hr with rfl | ⟨c, hc, hcx⟩
    · exact dfsLoop_acc_subset h a (List.mem_singleton.mpr rfl)
    · exact dfsLoop_complete h c hc x hcx

theorem mem_treeExpand {dfs : Nat → Option (List Nat)} {R : Nat → Nat → Prop}
    (hdfs : ∀ a l, dfs a = some l → ∀ x, x ∈ l ↔ R a x) :
    ∀ {exp atoms res : List Nat}, treeExpand dfs exp atoms = some res →
      ∀ x, x ∈ res ↔ x ∈ exp ∨ ∃ a ∈ atoms, R a x := by
  intro exp atoms
  induction atoms generalizing exp with
  | nil =>
      intro res h x
      cases h
      simp
  | cons a rest ih =>
      intro res h x
      revert h
      show treeExpand dfs exp (a :: rest) = some res → _
      unfold treeExpand
      cases hda : dfs a with
      | none => intro h; cases h
      | some l =>
          intro h
          rw [ih h x, mem_setUpdate, hdfs a l hda x]
          constructor
          · rintro ((hx | hx) | ⟨b, hb, hx⟩)
            · exact Or.inl hx
            · exact Or.inr ⟨a, List.mem_cons_self _ _, hx⟩
            · exact Or.inr ⟨b, List.mem_cons_of_mem _ hb, hx⟩
          · rintro (hx | ⟨b, hb, hx⟩)
            · exact Or.inl (Or.inl hx)
            · rcases List.mem_cons.mp hb with rfl | hb
              · exact Or.inl (Or.inr hx)
              · exact Or.inr ⟨b, hb, hx⟩

theorem filter_include (E : ASData) (given : List Nat) (t : Target) (context : String)
    (size fuel : Nat) :
    filter E given t context size fuel "include" =
      expand E (selectedAtoms E given t) context size fuel := by
  unfold filter
  cases hexp : expand E (selectedAtoms E given t) context size fuel with
  | none => rfl
  | some l => rfl

theorem expand_bounded (E : ASData) (atoms : List Nat) (d : BDir) (n fuel : Nat) :
    expand E atoms (bstr d) n fuel = some (expandIter (bnbr E d) n atoms) := by
  cases d with
  | din => rfl
  | dout => rfl
  | dboth =>
      show some (expandIterBoth E n atoms) = some (expandIter (bnbr E .dboth) n atoms)
      rw [expandIterBoth_eq]
      rfl

/-- C1: for every atom data, list of given atoms, selection target and bounded
context (direction `in`, `out` or `both` with size `n`; the plain context
strings are the size-1 case), `filter` with mode `include` returns exactly
the atoms within distance `n` of some target-selected atom, stepping along
incoming edges for `in`, outgoing edges for `out`, and both directions mixed
for `both`. -/
theorem c1_filter_bounded_include (E : ASData) (given : List Nat) (t : Target) (d : BDir)
    (n fuel : Nat) (res : List Nat)
    (h : filter E given t (bstr d) n fuel "include" = some res) (x : Nat) :
    x ∈ res ↔ ∃ a, a ∈ selectedAtoms E given t ∧ WithinDist (bnbr E d) n a x := by
  rw [filter_include, expand_bounded] at h
  cases h
  exact mem_expandIter

/-- Witness for C1 at a concrete input. -/
theorem c1_filter_bounded_include_witness :
    (1 ∈ ([2, 0, 1] : List Nat)) ↔
      ∃ a, a ∈ selectedAtoms E1 [0, 1, 2] (.func fun a => decide (a = 2)) ∧
        WithinDist (bnbr E1 .dout) 1 a 1 :=
  c1_filter_bounded_include E1 [0, 1, 2] (.func fun a => decide (a = 2)) .dout 1 0 [2, 0, 1]
    rfl 1

theorem tdfs_char (E : ASData) (fuel : Nat) (d : TDir) :
    ∀ a l, tdfs E fuel d a = some l → ∀ x, x ∈ l ↔ Reach (tnbr E d) a x := by
  cases d with
  | tin => exact fun a l h x => dfsLoop_start_char h x
  | tout => exact fun a l h x => dfsLoop_start_char h x

theorem expand_tree (E : ASData) (atoms : List Nat) (d : TDir) (n fuel : Nat) :
    expand E atoms (tstr d) n fuel = treeExpand (tdfs E fuel d) [] atoms := by
  cases d with
  | tin => rfl
  | tout => rfl

/-- C2: for every atom data, list of given atoms and selection target,
`filter` with context `in-tree` (resp. `out-tree`) and mode `include`
returns, whenever its DFS loops finish, exactly the atoms reachable from
some target-selected atom through the reflexive-transitive closure of the
incoming (resp. outgoing) edge relation. -/
theorem c2_filter_tree_include (E : ASData) (given : List Nat) (t : Target) (d : TDir)
    (size fuel : Nat) (res : List Nat)
    (h : filter E given t (tstr d) size fuel "include" = some res) (x : Nat) :
    x ∈ res ↔ ∃ a, a ∈ selectedAtoms E given t ∧ Reach (tnbr E d) a x := by
  rw [filter_include, expand_tree] at h
  rw [mem_treeExpand (tdfs_char E fuel d) h x]
  simp

/-- Witness for C2 at a concrete input. -/
theorem c2_filter_tree_include_witness :
    (0 ∈ ([2, 0, 1] : List Nat)) ↔
      ∃ a, a ∈ selectedAtoms E1 [0, 1, 2] (.func fun a => decide (a = 2)) ∧
        Reach (tnbr E1 .tout) a 0 :=
  c2_filter_tree_include E1 [0, 1, 2] (.func fun a => decide (a = 2)) .tout 1 2 [2, 0, 1]
    rfl 0

/-- C3: whenever the outgoing (resp. incoming) edge relation is well-founded
(no infinite path, in particular acyclic reachable parts), the unbounded
depth-first traversal `_dfs_out` (resp. `_dfs_in`) terminates — some fuel
makes the while-loop finish — and its result list contains every atom
reachable from the start atom along that relation. -/
theorem c3_dfs_terminates (E : ASData) (a : Nat) :
    (WellFounded (fun v u => v ∈ E.out u) →
      ∃ fuel res, dfs_out E fuel a = some res ∧ ∀ x, Reach E.out a x → x ∈ res) ∧
    (WellFounded (fun v u => v ∈ E.incoming u) →
      ∃ fuel res, dfs_in E fuel a = some res ∧ ∀ x, Reach E.incoming a x → x ∈ res) := by
  constructor
  · intro hwf
    obtain ⟨fuel, hf⟩ := dfsTerm_fuel (dfsTerm_of_wf hwf (E.out a))
    obtain ⟨res, hres⟩ := hf [a]
    exact ⟨fuel, res, hres, fun x hx => (dfsLoop_start_char hres x).mpr hx⟩
  · intro hwf
    obtain ⟨fuel, hf⟩ := dfsTerm_fuel (dfsTerm_of_wf hwf (E.incoming a))
    obtain ⟨res, hres⟩ := hf [a]
    exact ⟨fuel, res, hres, fun x hx => (dfsLoop_start_char hres x).mpr hx⟩

theorem E1_out_wf : WellFounded (fun v u => v ∈ E1.out u) := by
  have hsub : ∀ {v u : Nat}, v ∈ E1.out u → v < u := by
    intro v u h
    by_cases hu : u = 2
    · subst hu
      simp [E1] at h
      omega
    · simp [E1, hu] at h
  exact Subrelation.wf hsub (Nat.lt_wfRel.wf)

theorem E1_incoming_wf : WellFounded (fun v u => v ∈ E1.incoming u) := by
  have hsub : ∀ {v u : Nat}, v ∈ E1.incoming u → 3 - v < 3 - u := by
    intro v u h
    by_cases hu : u < 2
    · simp [E1, hu] at h
      omega
    · simp [E1, hu] at h
  exact Subrelation.wf hsub (InvImage.wf (fun u => 3 - u) Nat.lt_wfRel.wf)

/-- Witness for C3 at a concrete input. -/
theorem c3_dfs_terminates_witness :
    (∃ fuel res, dfs_out E1 fuel 2 = some res ∧ ∀ x, Reach E1.out 2 x → x ∈ res) ∧
    (∃ fuel res, dfs_in E1 fuel 0 = some res ∧ ∀ x, Reach E1.incoming 0 x → x ∈ res) :=
  ⟨(c3_dfs_terminates E1 2).1 E1_out_wf, (c3_dfs_terminates E1 0).2 E1_incoming_wf⟩

theorem dfs_in_start (E : ASData) (fuel : Nat) :
    ∀ a l, dfs_in E fuel a = some l → a ∈ l :=
  fun a _ h => dfsLoop_acc_subset h a (List.mem_singleton.mpr rfl)

theorem dfs_out_start (E : ASData) (fuel : Nat) :
    ∀ a l, dfs_out E fuel a = some l → a ∈ l :=
  fun a _ h => dfsLoop_acc_subset h a (List.mem_singleton.mpr rfl)

theorem treeExpand_superset {dfs : Nat → Option (List Nat)}
    (hstart : ∀ a l, dfs a = some l → a ∈ l) :
    ∀ {exp atoms res : List Nat}, treeExpand dfs exp atoms = some res →
      ∀ x, x ∈ exp ∨ x ∈ atoms → x ∈ res := by
  intro exp atoms
  induction atoms generalizing exp with
  | nil =>
      intro res h x hx
      cases h
      rcases hx with hx | hx
      · exact hx
      · cases hx
  | cons a rest ih =>
      intro res h x hx
      revert h
      show treeExpand dfs exp (a :: rest) = some res → _
      unfold treeExpand
      cases hda : dfs a with
      | none => intro h; cases h
      | some l =>
          intro h
          apply ih h
          rcases hx with hx | hx
          · exact Or.inl (mem_setUpdate.mpr (Or.inl hx))
          · rcases List.mem_cons.mp hx with hxa | hx
            · exact Or.inl (mem_setUpdate.mpr (Or.inr (hxa ▸ hstart a l hda)))
            · exact Or.inr hx

theorem expand_superset (E : ASData) (atoms : List Nat) (context : String)
    (size fuel : Nat) (res : List Nat) (h : expand E atoms context size fuel = some res) :
    ∀ x ∈ atoms, x ∈ res := by
  intro x hx
  unfold expand at h
  split at h
  · cases h; exact subset_expandIter hx
  · split at h
    · cases h; exact subset_expandIter hx
    · split at h
      · cases h
        rw [expandIterBoth_eq]
        exact subset_expandIter hx
      · split at h
        · exact treeExpand_superset (dfs_in_start E fuel) h x (Or.inr hx)
        · split at h
          · exact treeExpand_superset (dfs_out_start E fuel) h x (Or.inr hx)
          · cases h; exact hx

/-- C5: for every atom data, list of given atoms, target, context and size,
the result of `filter` with mode `include` is a superset of the atoms
initially selected by the target: expansion only ever adds atoms. -/
theorem c5_include_superset (E : ASData) (given : List Nat) (t : Target) (context : String)
    (size fuel : Nat) (res : List Nat)
    (h : filter E given t context size fuel "include" = some res) :
    ∀ a, a ∈ selectedAtoms E given t → a ∈ res := by
  rw [filter_include] at h
  exact fun a ha => expand_superset E _ context size fuel res h a ha

/-- Witness for C5 at a concrete input. -/
theorem c5_include_superset_witness : 2 ∈ ([2, 0, 1] : List Nat) :=
  c5_include_superset E1 [0, 1, 2] (.func fun a => decide (a = 2)) "out" 1 0 [2, 0, 1] rfl 2
    (by decide)

/-- C4: for every atom data, given atoms, target and context, `filter` with
mode `exclude` returns exactly the given atoms not in the expanded selection,
in the original order of the given atoms; and for context `atom` the results
of `include` and `exclude` on the same data and target partition the given
atoms. -/
theorem c4_exclude_complement (E : ASData) (given : List Nat) (t : Target) (context : String)
    (size fuel : Nat) :
    (∀ inc exc, filter E given t context size fuel "include" = some inc →
      filter E given t context size fuel "exclude" = some exc →
      exc = given.filter (fun a => decide (a ∉ inc))) ∧
    (∀ inc exc, filter E given t "atom" size fuel "include" = some inc →
      filter E given t "atom" size fuel "exclude" = some exc →
      ∀ a, a ∈ given → (a ∈ inc ∧ a ∉ exc) ∨ (a ∉ inc ∧ a ∈ exc)) := by
  have key : ∀ c inc exc, filter E given t c size fuel "include" = some inc →
      filter E given t c size fuel "exclude" = some exc →
      exc = given.filter (fun a => decide (a ∉ inc)) := by
    intro c inc exc hinc hexc
    rw [filter_include] at hinc
    unfold filter at hexc
    rw [hinc] at hexc
    cases hexc
    rfl
  constructor
  · exact key context
  · intro inc exc hinc hexc a ha
    have hexc2 := key "atom" inc exc hinc hexc
    by_cases hmem : a ∈ inc
    · refine Or.inl ⟨hmem, ?_⟩
      intro hcontra
      rw [hexc2, List.mem_filter] at hcontra
      exact (decide_eq_true_eq.mp hcontra.2) hmem
    · refine Or.inr ⟨hmem, ?_⟩
      rw [hexc2, List.mem_filter]
      exact ⟨ha, decide_eq_true_eq.mpr hmem⟩

/-- Witness for C4 at a concrete input. -/
theorem c4_exclude_complement_witness :
    ([] : List Nat) = [0, 1, 2].filter (fun a => decide (a ∉ ([2, 0, 1] : List Nat))) ∧
    ((0 ∈ ([2] : List Nat) ∧ 0 ∉ ([0, 1] : List Nat)) ∨
      (0 ∉ ([2] : List Nat) ∧ 0 ∈ ([0, 1] : List Nat))) :=
  ⟨(c4_exclude_complement E1 [0, 1, 2] (.func fun a => decide (a = 2)) "out" 1 0).1
      [2, 0, 1] [] rfl rfl,
    (c4_exclude_complement E1 [0, 1, 2] (.func fun a => decide (a = 2)) "out" 1 0).2
      [2] [0, 1] rfl rfl 0 (by decide)⟩

theorem lowerElem_intv (i : Int) : lowerElem (.intv i) = .intv i := rfl

theorem lowerElem_atomv (b : Nat) : lowerElem (.atomv b) = .atomv b := rfl

theorem listTarget_match (E : ASData) (l : List TElem) (atom : Nat) :
    prepare_filter_func E (.listv l) atom = true ↔ ∃ x, x ∈ l ∧ elemMatches E x atom := by
  show (decide _ || decide _ || decide _ || decide _) = true ↔ _
  simp only [Bool.or_eq_true, decide_eq_true_eq]
  constructor
  · rintro (((h | h) | h) | h)
    · rcases List.mem_map.mp h with ⟨x, hx, hm⟩
      cases x with
      | strv s2 =>
          refine ⟨.strv s2, hx, Or.inr ?_⟩
          have : s2.toLower = (E.typeName atom).toLower := by
            have := hm
            simp only [lowerElem] at this
            exact TElem.strv.inj this
          exact this.symm
      | intv i => exact absurd hm (by simp [lowerElem])
      | atomv b => exact absurd hm (by simp [lowerElem])
    · rcases List.mem_map.mp h with ⟨x, hx, hm⟩
      cases x with
      | strv s2 =>
          refine ⟨.strv s2, hx, Or.inl ?_⟩
          have : s2.toLower = (E.name atom).toLower := by
            have := hm
            simp only [lowerElem] at this
            exact TElem.strv.inj this
          exact this.symm
      | intv i => exact absurd hm (by simp [lowerElem])
      | atomv b => exact absurd hm (by simp [lowerElem])
    · rcases List.mem_map.mp h with ⟨x, hx, hm⟩
      cases x with
      | strv s2 => exact absurd hm (by simp [lowerElem])
      | intv i =>
          rw [lowerElem_intv] at hm
          exact ⟨.intv i, hx, (TElem.intv.inj hm).symm⟩
      | atomv b => exact absurd hm (by simp [lowerElem])
    · rcases List.mem_map.mp h with ⟨x, hx, hm⟩
      cases x with
      | strv s2 => exact absurd hm (by simp [lowerElem])
      | intv i => exact absurd hm (by simp [lowerElem])
      | atomv b =>
          rw [lowerElem_atomv] at hm
          exact ⟨.atomv b, hx, (TElem.atomv.inj hm).symm⟩
  · rintro ⟨x, hx, hm⟩
    cases x with
    | strv s2 =>
        rcases hm with hm | hm
        · refine Or.inl (Or.inl (Or.inr (List.mem_map.mpr ⟨.strv s2, hx, ?_⟩)))
          simp only [lowerElem]
          exact congrArg TElem.strv hm.symm
        · refine Or.inl (Or.inl (Or.inl (List.mem_map.mpr ⟨.strv s2, hx, ?_⟩)))
          simp only [lowerElem]
          exact congrArg TElem.strv hm.symm
    | intv i =>
        refine Or.inl (Or.inr (List.mem_map.mpr ⟨.intv i, hx, ?_⟩))
        rw [lowerElem_intv]
        exact congrArg TElem.intv hm.symm
    | atomv b =>
        refine Or.inr (List.mem_map.mpr ⟨.atomv b, hx, ?_⟩)
        rw [lowerElem_atomv]
        exact congrArg TElem.atomv hm.symm

/-- C10: for a string target, `filter` selects an atom exactly when the
target compares equal, ignoring case, to the atom's name or type name; for a
list target, an atom is selected exactly when some list element matches it
by case-insensitive name or type name, by integer type, or by being the atom
itself. -/
theorem c10_target_selection (E : ASData) (given : List Nat) (s : String) (l : List TElem)
    (atom : Nat) :
    (atom ∈ selectedAtoms E given (.strv s) ↔
      atom ∈ given ∧ (ciEq (E.name atom) s ∨ ciEq (E.typeName atom) s)) ∧
    (atom ∈ selectedAtoms E given (.listv l) ↔
      atom ∈ given ∧ ∃ x, x ∈ l ∧ elemMatches E x atom) := by
  constructor
  · show atom ∈ given.filter _ ↔ _
    rw [List.mem_filter]
    simp only [prepare_filter_func, Bool.or_eq_true, decide_eq_true_eq]
    rfl
  · show atom ∈ given.filter _ ↔ _
    rw [List.mem_filter, listTarget_match]

theorem bumpType_sum (m : List (String × Nat)) (key : String) :
    ((bumpType m key).map Prod.snd).sum = (m.map Prod.snd).sum + 1 := by
  induction m with
  | nil => rfl
  | cons kv rest ih =>
      obtain ⟨k, v⟩ := kv
      unfold bumpType
      split
      · simp [Nat.add_assoc, Nat.add_comm 1 _]
      · simp only [List.map_cons, List.sum_cons, ih]
        omega

theorem inspectLoop_fst (E : ASData) :
    ∀ (data : List Nat) (nn nl : Nat) (nt : List (String × Nat)),
      (inspectLoop E data (nn, nl, nt)).1 = nn + (data.filter (fun a => E.isNode a)).length := by
  intro data
  induction data with
  | nil => intro nn nl nt; simp [inspectLoop]
  | cons atom rest ih =>
      intro nn nl nt
      unfold inspectLoop
      by_cases h : E.isNode atom
      · rw [if_pos h, ih]
        simp [List.filter_cons, h, Nat.add_assoc, Nat.add_comm 1 _]
      · rw [if_neg h, ih]
        simp [List.filter_cons, h]

theorem inspectLoop_snd (E : ASData) :
    ∀ (data : List Nat) (nn nl : Nat) (nt : List (String × Nat)),
      (inspectLoop E data (nn, nl, nt)).2.1 =
        nl + (data.filter (fun a => !(E.isNode a))).length := by
  intro data
  induction data with
  | nil => intro nn nl nt; simp [inspectLoop]
  | cons atom rest ih =>
      intro nn nl nt
      unfold inspectLoop
      by_cases h : E.isNode atom
      · rw [if_pos h, ih]
        simp [List.filter_cons, h]
      · rw [if_neg h, ih]
        simp [List.filter_cons, h, Nat.add_assoc, Nat.add_comm 1 _]

theorem inspectLoop_types_sum (E : ASData) :
    ∀ (data : List Nat) (nn nl : Nat) (nt : List (String × Nat)),
      (((inspectLoop E data (nn, nl, nt)).2.2).map Prod.snd).sum =
        (nt.map Prod.snd).sum + data.length := by
  intro data
  induction data with
  | nil => intro nn nl nt; simp [inspectLoop]
  | cons atom rest ih =>
      intro nn nl nt
      unfold inspectLoop
      by_cases h : E.isNode atom
      · rw [if_pos h, ih, bumpType_sum]
        simp [Nat.add_assoc, Nat.add_comm 1 _]
      · rw [if_neg h, ih, bumpType_sum]
        simp [Nat.add_assoc, Nat.add_comm 1 _]

theorem inspectCountLoop_fst (E : ASData) :
    ∀ (data : List Nat) (nn nl : Nat),
      (inspectCountLoop E data (nn, nl)).1 =
        nn + (data.filter (fun a => E.isNode a)).length := by
  intro data
  induction data with
  | nil => intro nn nl; simp [inspectCountLoop]
  | cons atom rest ih =>
      intro nn nl
      unfold inspectCountLoop
      by_cases h : E.isNode atom
      · rw [if_pos h, ih]
        simp [List.filter_cons, h, Nat.add_assoc, Nat.add_comm 1 _]
      · rw [if_neg h, ih]
        simp [List.filter_cons, h]

theorem inspectCountLoop_snd (E : ASData) :
    ∀ (data : List Nat) (nn nl : Nat),
      (inspectCountLoop E data (nn, nl)).2 =
        nl + (data.filter (fun a => !(E.isNode a))).length := by
  intro data
  induction data with
  | nil => intro nn nl; simp [inspectCountLoop]
  | cons atom rest ih =>
      intro nn nl
      unfold inspectCountLoop
      by_cases h : E.isNode atom
      · rw [if_pos h, ih]
        simp [List.filter_cons, h]
      · rw [if_neg h, ih]
        simp [List.filter_cons, h, Nat.add_assoc, Nat.add_comm 1 _]

theorem filter_length_split (p : Nat → Bool) (data : List Nat) :
    (data.filter p).length + (data.filter (fun a => !(p a))).length = data.length := by
  induction data with
  | nil => rfl
  | cons a rest ih =>
      by_cases h : p a
      · simp [List.filter_cons, h, ← ih]
        omega
      · simp [List.filter_cons, h, ← ih]
        omega

/-- C7: `inspect` on an AtomSpace or list of Atoms returns counts with
`atoms = nodes + links`, where `nodes` counts exactly the atoms for which
`is_node()` holds and `links` the rest; with `count_details=True` the
per-type counts sum to the `atoms` count. -/
theorem c7_inspect_counts (E : ASData) (data : List Nat) (count_details : Bool) :
    (inspect E data count_details).atoms =
        (inspect E data count_details).nodes + (inspect E data count_details).links ∧
    (inspect E data count_details).nodes = (data.filter (fun a => E.isNode a)).length ∧
    (inspect E data count_details).links = (data.filter (fun a => !(E.isNode a))).length ∧
    (∀ t, (inspect E data count_details).types = some t →
      (t.map Prod.snd).sum = (inspect E data count_details).atoms) := by
  unfold inspect inspect_atomspace
  cases count_details with
  | false =>
      refine ⟨rfl, ?_, ?_, ?_⟩
      · show (inspectCountLoop E data (0, 0)).1 = _
        rw [inspectCountLoop_fst, Nat.zero_add]
      · show (inspectCountLoop E data (0, 0)).2 = _
        rw [inspectCountLoop_snd, Nat.zero_add]
      · intro t ht
        cases ht
  | true =>
      refine ⟨rfl, ?_, ?_, ?_⟩
      · show (inspectLoop E data (0, 0, [])).1 = _
        rw [inspectLoop_fst, Nat.zero_add]
      · show (inspectLoop E data (0, 0, [])).2.1 = _
        rw [inspectLoop_snd, Nat.zero_add]
      · intro t ht
        have ht2 : some (inspectLoop E data (0, 0, [])).2.2 = some t := ht
        cases ht2
        show ((inspectLoop E data (0, 0, [])).2.2.map Prod.snd).sum =
          (inspectLoop E data (0, 0, [])).1 + (inspectLoop E data (0, 0, [])).2.1
        rw [inspectLoop_types_sum, inspectLoop_fst, inspectLoop_snd]
        simp [filter_length_split]

/-- Witness for C7 at a concrete input. -/
theorem c7_inspect_counts_witness :
    (inspect E1 [0, 1, 2] true).atoms =
        (inspect E1 [0, 1, 2] true).nodes + (inspect E1 [0, 1, 2] true).links ∧
    ([("PredicateNode", 2), ("AndLink", 1)].map Prod.snd).sum =
        (inspect E1 [0, 1, 2] true).atoms :=
  ⟨(c7_inspect_counts E1 [0, 1, 2] true).1,
    (c7_inspect_counts E1 [0, 1, 2] true).2.2.2 [("PredicateNode", 2), ("AndLink", 1)] rfl⟩

/-- C8: `store` with `overwrite=False` raises `FileExistsError` when a file
exists at the filepath, and does so before any export, leaving the file
system unchanged; with `overwrite=True` or no existing file, the export
proceeds and writes the content. -/
theorem c8_store_overwrite (fs : String → Option String) (content filepath method : String)
    (overwrite : Bool) (hm : method = "basic" ∨ method = "file-storage-node") :
    ((overwrite = false ∧ (fs filepath).isSome = true) →
      store fs content filepath method overwrite = (.error .fileExists, fs)) ∧
    ((overwrite = true ∨ (fs filepath).isNone = true) →
      (store fs content filepath method overwrite).1 = .ok () ∧
      (store fs content filepath method overwrite).2 filepath = some content) := by
  have hcheck : check_arg_value method ["basic", "file-storage-node"] = .ok () := by
    rcases hm with rfl | rfl <;> rfl
  have hwrite : ∀ g : Except PyErr Unit × (String → Option String),
      g = (.ok (), fun p => if p = filepath then some content else fs p) →
      g.1 = .ok () ∧ g.2 filepath = some content := by
    rintro g rfl
    refine ⟨rfl, ?_⟩
    show (if filepath = filepath then some content else fs filepath) = some content
    rw [if_pos rfl]
  constructor
  · rintro ⟨hov, hsome⟩
    subst hov
    have hfe : check_if_file_exists fs filepath = .error .fileExists := by
      unfold check_if_file_exists
      rw [if_pos hsome]
    unfold store
    rw [hcheck, hfe]
    rfl
  · intro hcase
    cases overwrite with
    | true =>
        apply hwrite
        unfold store
        rw [hcheck]
        rfl
    | false =>
        rcases hcase with hcontra | hnone
        · cases hcontra
        · have hok : check_if_file_exists fs filepath = .ok () := by
            unfold check_if_file_exists
            rw [if_neg (by simp [Option.isNone_iff_eq_none.mp hnone])]
          apply hwrite
          unfold store
          rw [hcheck, hok]
          rfl

/-- Witness for C8 at a concrete input. -/
theorem c8_store_overwrite_witness :
    (store (fun _ => some "old") "new" "data.scm" "basic" false =
      (.error .fileExists, fun _ => some "old")) ∧
    ((store (fun _ => none) "new" "data.scm" "basic" false).1 = .ok () ∧
      (store (fun _ => none) "new" "data.scm" "basic" false).2 "data.scm" = some "new") :=
  ⟨(c8_store_overwrite (fun _ => some "old") "new" "data.scm" "basic" false
      (Or.inl rfl)).1 ⟨rfl, rfl⟩,
    (c8_store_overwrite (fun _ => none) "new" "data.scm" "basic" false
      (Or.inl rfl)).2 (Or.inr rfl)⟩

/-- C9 counterexample: at the concrete context tuple `('in', 1, 2)` the code
raises the plain tuple-unpacking ValueError, whose message is not
`Argument "context" got an invalid tuple as value.` — although the tuple is
not of the valid form `(c, n)`, so the claim predicts that message. -/
theorem c9_counterexample_unpacking :
    processContextTuple [.strv "in", .intv 1, .intv 2] =
        .error (.valueError (unpackTwoMsg 3)) ∧
    unpackTwoMsg 3 ≠ invalidTupleMsg :=
  ⟨rfl, by decide⟩

/-- C9 amended: a 2-element context tuple `(c, n)` raises ValueError with the
invalid-tuple message unless `c` is one of `in`, `out`, `both` and `n` is an
integer at least zero, in which case processing succeeds with `(c, n)`;
a tuple of any other length raises a ValueError coming from tuple unpacking,
with a different message. -/
theorem c9_context_tuple_validation (c n : PyVal) :
    (validContextTuple c n = false →
      processContextTuple [c, n] = .error (.valueError invalidTupleMsg)) ∧
    (validContextTuple c n = true →
      ∃ cs ni, c = .strv cs ∧ n = .intv ni ∧ processContextTuple [c, n] = .ok (cs, ni)) ∧
    (∀ xs : List PyVal, xs.length ≠ 2 →
      processContextTuple xs = .error (.valueError (unpackTwoMsg xs.length)) ∧
      unpackTwoMsg xs.length ≠ invalidTupleMsg) := by
  refine ⟨?_, ?_, ?_⟩
  · intro hinvalid
    cases c with
    | strv cs =>
        cases n with
        | intv ni =>
            show (if cs = "in" ∨ cs = "out" ∨ cs = "both" then
                    if ni < 0 then Except.error (PyErr.valueError invalidTupleMsg)
                    else Except.ok (cs, ni)
                  else Except.error (PyErr.valueError invalidTupleMsg)) =
              Except.error (PyErr.valueError invalidTupleMsg)
            by_cases hcs : cs = "in" ∨ cs = "out" ∨ cs = "both"
            · rw [if_pos hcs]
              have hni : ni < 0 := by
                by_contra hge
                push_neg at hge
                have hvt : validContextTuple (.strv cs) (.intv ni) = true := by
                  unfold validContextTuple
                  simp only [Bool.and_eq_true, Bool.or_eq_true, decide_eq_true_eq]
                  exact ⟨by tauto, hge⟩
                rw [hinvalid] at hvt
                exact absurd hvt (by decide)
              rw [if_pos hni]
            · rw [if_neg hcs]
        | strv s2 => rfl
        | tupv t2 => rfl
    | intv i =>
        cases n <;> rfl
    | tupv t =>
        cases n <;> rfl
  · intro hvalid
    cases c with
    | strv cs =>
        cases n with
        | intv ni =>
            unfold validContextTuple at hvalid
            simp only [Bool.and_eq_true, Bool.or_eq_true, decide_eq_true_eq] at hvalid
            refine ⟨cs, ni, rfl, rfl, ?_⟩
            show (if cs = "in" ∨ cs = "out" ∨ cs = "both" then
                    if ni < 0 then Except.error (PyErr.valueError invalidTupleMsg)
                    else Except.ok (cs, ni)
                  else Except.error (PyErr.valueError invalidTupleMsg)) = Except.ok (cs, ni)
            rw [if_pos (by tauto), if_neg (by omega)]
        | strv s2 => cases hvalid
        | tupv t2 => cases hvalid
    | intv i => cases n <;> cases hvalid
    | tupv t => cases n <;> cases hvalid
  · intro xs hlen
    match xs with
    | [] => exact ⟨rfl, by decide⟩
    | [x] => exact ⟨rfl, show unpackTwoMsg 1 ≠ invalidTupleMsg by decide⟩
    | [x, y] => exact absurd rfl hlen
    | x :: y :: z :: rest =>
        refine ⟨rfl, ?_⟩
        show unpackTwoMsg (rest.length + 1 + 1 + 1) ≠ invalidTupleMsg
        unfold unpackTwoMsg
        rw [if_neg (by omega)]
        decide

theorem addNode_of_mem {g : NXGraph} {u : Nat} (h : u ∈ g.nodes) : addNode g u = g := by
  unfold addNode
  rw [if_pos h]

theorem addNode_mem {g : NXGraph} {u x : Nat} :
    x ∈ (addNode g u).nodes ↔ x ∈ g.nodes ∨ x = u := by
  unfold addNode
  split
  · next h =>
      constructor
      · exact fun hx => Or.inl hx
      · rintro (hx | rfl)
        · exact hx
        · exact h
  · simp [List.mem_append]

theorem addNode_edges {g : NXGraph} {u : Nat} : (addNode g u).edges = g.edges := by
  unfold addNode
  split <;> rfl

theorem addNode_nodup {g : NXGraph} {u : Nat} (h : g.nodes.Nodup) :
    (addNode g u).nodes.Nodup := by
  unfold addNode
  split
  · exact h
  · next hu =>
      show (g.nodes ++ [u]).Nodup
      rw [List.nodup_append]
      exact ⟨h, List.nodup_singleton u,
        fun a ha hau => hu (by rwa [List.mem_singleton.mp hau] at ha)⟩

theorem nodePhase_mem {data : List Nat} : ∀ {g : NXGraph} {x : Nat},
    x ∈ (data.foldl (fun g atom => addNode g (to_uid atom)) g).nodes ↔
      x ∈ g.nodes ∨ ∃ a, a ∈ data ∧ to_uid a = x := by
  induction data with
  | nil =>
      intro g x
      simp
  | cons a rest ih =>
      intro g x
      simp only [List.foldl_cons]
      rw [ih]
      constructor
      · rintro (h | ⟨b, hb, hbx⟩)
        · rcases addNode_mem.mp h with h2 | h2
          · exact Or.inl h2
          · exact Or.inr ⟨a, List.mem_cons_self _ _, h2.symm⟩
        · exact Or.inr ⟨b, List.mem_cons_of_mem _ hb, hbx⟩
      · rintro (h | ⟨b, hb, hbx⟩)
        · exact Or.inl (addNode_mem.mpr (Or.inl h))
        · rcases List.mem_cons.mp hb with hba | hb2
          · exact Or.inl (addNode_mem.mpr (Or.inr (by rw [← hbx, hba])))
          · exact Or.inr ⟨b, hb2, hbx⟩

theorem nodePhase_edges {data : List Nat} : ∀ {g : NXGraph},
    (data.foldl (fun g atom => addNode g (to_uid atom)) g).edges = g.edges := by
  induction data with
  | nil => intro g; rfl
  | cons a rest ih =>
      intro g
      simp only [List.foldl_cons]
      rw [ih, addNode_edges]

theorem nodePhase_nodup {data : List Nat} : ∀ {g : NXGraph}, g.nodes.Nodup →
    (data.foldl (fun g atom => addNode g (to_uid atom)) g).nodes.Nodup := by
  induction data with
  | nil => intro g h; exact h
  | cons a rest ih =>
      intro g h
      simp only [List.foldl_cons]
      exact ih (addNode_nodup h)

theorem addEdge_nodes {g : NXGraph} {u v : Nat} (hu : u ∈ g.nodes) (hv : v ∈ g.nodes) :
    (addEdge g u v).nodes = g.nodes := by
  simp only [addEdge, addNode_of_mem hu, addNode_of_mem hv]
  split <;> rfl

theorem addEdge_edges_sub {g : NXGraph} {u v : Nat} :
    ∀ e ∈ (addEdge g u v).edges, e ∈ g.edges ∨ e = (u, v) := by
  intro e he
  simp only [addEdge] at he
  split at he
  · rw [addNode_edges, addNode_edges] at he
    exact Or.inl he
  · have he2 : e ∈ (addNode (addNode g u) v).edges ++ [(u, v)] := he
    rw [addNode_edges, addNode_edges] at he2
    rcases List.mem_append.mp he2 with h1 | h1
    · exact Or.inl h1
    · exact Or.inr (List.mem_singleton.mp h1)

theorem foldl_guard_addEdge {N : List Nat} {mke : Nat → Nat × Nat} {P : Nat × Nat → Prop} :
    ∀ (l : List Nat) (g : NXGraph), g.nodes = N →
      (∀ x ∈ l, to_uid x ∈ N → P (mke x) ∧ (mke x).1 ∈ N ∧ (mke x).2 ∈ N) →
      ((l.foldl (fun gg x =>
          if to_uid x ∈ gg.nodes then addEdge gg (mke x).1 (mke x).2 else gg) g).nodes = N ∧
        ∀ e ∈ (l.foldl (fun gg x =>
          if to_uid x ∈ gg.nodes then addEdge gg (mke x).1 (mke x).2 else gg) g).edges,
          e ∈ g.edges ∨ P e) := by
  intro l
  induction l with
  | nil => intro g hg hP; exact ⟨hg, fun e he => Or.inl he⟩
  | cons x rest ih =>
      intro g hg hP
      simp only [List.foldl_cons]
      by_cases hx : to_uid x ∈ g.nodes
      · rw [if_pos hx]
        have hxN : to_uid x ∈ N := hg ▸ hx
        obtain ⟨hPx, h1, h2⟩ := hP x (List.mem_cons_self _ _) hxN
        have hnodes : (addEdge g (mke x).1 (mke x).2).nodes = N := by
          rw [addEdge_nodes (hg.symm ▸ h1) (hg.symm ▸ h2)]
          exact hg
        obtain ⟨ha, hb⟩ := ih (addEdge g (mke x).1 (mke x).2) hnodes
          (fun y hy => hP y (List.mem_cons_of_mem _ hy))
        refine ⟨ha, fun e he => ?_⟩
        rcases hb e he with he2 | he2
        · rcases addEdge_edges_sub e he2 with he3 | he3
          · exact Or.inl he3
          · refine Or.inr ?_
            rw [he3]
            exact hPx
        · exact Or.inr he2
      · rw [if_neg hx]
        exact ih g hg (fun y hy => hP y (List.mem_cons_of_mem _ hy))

theorem addLinkEdges_spec (E : ASData) (data : List Nat) {N : List Nat}
    (hchar : ∀ u, u ∈ N ↔ ∃ a, a ∈ data ∧ to_uid a = u) :
    ∀ atom, atom ∈ data → ∀ g : NXGraph, g.nodes = N →
      ((addLinkEdges E g atom).nodes = N ∧
        ∀ e ∈ (addLinkEdges E g atom).edges, e ∈ g.edges ∨ edgeSpec E data e) := by
  intro atom hatom g hg
  unfold addLinkEdges
  split
  · next hlink =>
      have hatomN : to_uid atom ∈ N := (hchar _).mpr ⟨atom, hatom, rfl⟩
      obtain ⟨h1nodes, h1edges⟩ :=
        @foldl_guard_addEdge N (fun a2 => (to_uid a2, to_uid atom))
          (edgeSpec E data) (E.incoming atom) g hg
          (fun x hxmem hxN =>
            ⟨⟨atom, x, hatom, hlink, (hchar _).mp hxN, Or.inr ⟨rfl, rfl, hxmem⟩⟩, hxN, hatomN⟩)
      obtain ⟨h2nodes, h2edges⟩ :=
        @foldl_guard_addEdge N (fun a2 => (to_uid atom, to_uid a2))
          (edgeSpec E data) (E.out atom)
          ((E.incoming atom).foldl
            (fun gg atom2 =>
              if to_uid atom2 ∈ gg.nodes then addEdge gg (to_uid atom2) (to_uid atom) else gg) g)
          h1nodes
          (fun x hxmem hxN =>
            ⟨⟨atom, x, hatom, hlink, (hchar _).mp hxN, Or.inl ⟨rfl, rfl, hxmem⟩⟩, hatomN, hxN⟩)
      refine ⟨h2nodes, fun e he => ?_⟩
      rcases h2edges e he with he2 | he2
      · exact h1edges e he2
      · exact Or.inr he2
  · exact ⟨hg, fun e he => Or.inl he⟩

theorem foldl_addLinkEdges_spec (E : ASData) (data : List Nat) {N : List Nat}
    (hchar : ∀ u, u ∈ N ↔ ∃ a, a ∈ data ∧ to_uid a = u) :
    ∀ (l : List Nat), (∀ a ∈ l, a ∈ data) → ∀ g : NXGraph, g.nodes = N →
      (∀ e ∈ g.edges, edgeSpec E data e) →
      ((l.foldl (addLinkEdges E) g).nodes = N ∧
        ∀ e ∈ (l.foldl (addLinkEdges E) g).edges, edgeSpec E data e) := by
  intro l
  induction l with
  | nil => intro hsub g hg hP; exact ⟨hg, hP⟩
  | cons a rest ih =>
      intro hsub g hg hP
      simp only [List.foldl_cons]
      obtain ⟨h1, h2⟩ := addLinkEdges_spec E data hchar a (hsub a (List.mem_cons_self _ _)) g hg
      refine ih (fun b hb => hsub b (List.mem_cons_of_mem _ hb)) _ h1 ?_
      intro e he
      rcases h2 e he with h3 | h3
      · exact hP e h3
      · exact h3

/-- C6: `convert` creates exactly one graph node per distinct atom uid of the
input (the node list is duplicate-free and holds precisely the input uids),
and every edge connects the uids of two input atoms — no endpoint lies
outside the created node set — running between a Link atom and one of the
atoms related to it by the incoming or outgoing relation. -/
theorem c6_convert_nodes_edges (E : ASData) (data : List Nat) :
    (convert E data).nodes.Nodup ∧
    (∀ u, u ∈ (convert E data).nodes ↔ ∃ a, a ∈ data ∧ to_uid a = u) ∧
    (∀ e ∈ (convert E data).edges, edgeSpec E data e) := by
  have hchar : ∀ u,
      u ∈ (data.foldl (fun g atom => addNode g (to_uid atom)) (⟨[], []⟩ : NXGraph)).nodes ↔
        ∃ a, a ∈ data ∧ to_uid a = u := by
    intro u
    rw [nodePhase_mem]
    simp
  obtain ⟨hn, he⟩ := foldl_addLinkEdges_spec E data hchar data (fun a ha => ha)
    (data.foldl (fun g atom => addNode g (to_uid atom)) (⟨[], []⟩ : NXGraph)) rfl
    (by intro e hmem
        rw [nodePhase_edges] at hmem
        cases hmem)
  refine ⟨?_, ?_, fun e he2 => he e he2⟩
  · show ((data.foldl (addLinkEdges E)
      (data.foldl (fun g atom => addNode g (to_uid atom)) (⟨[], []⟩ : NXGraph))).nodes).Nodup
    rw [hn]
    exact nodePhase_nodup List.nodup_nil
  · intro u
    show u ∈ (data.foldl (addLinkEdges E)
      (data.foldl (fun g atom => addNode g (to_uid atom)) (⟨[], []⟩ : NXGraph))).nodes ↔ _
    rw [hn]
    exact hchar u

/-- Witness for C6 at a concrete input. -/
theorem c6_convert_nodes_edges_witness :
    (0 ∈ (convert E1 [0, 1, 2]).nodes ↔ ∃ a, a ∈ [0, 1, 2] ∧ to_uid a = 0) ∧
    edgeSpec E1 [0, 1, 2] (2, 0) :=
  ⟨(c6_convert_nodes_edges E1 [0, 1, 2]).2.1 0,
    (c6_convert_nodes_edges E1 [0, 1, 2]).2.2 (2, 0) (by decide)⟩

/-- Witness for the amended C9 at concrete inputs. -/
theorem c9_context_tuple_validation_witness :
    processContextTuple [.strv "in", .intv (-1)] = .error (.valueError invalidTupleMsg) ∧
    (∃ cs ni, PyVal.strv "out" = .strv cs ∧ PyVal.intv 2 = .intv ni ∧
      processContextTuple [.strv "out", .intv 2] = .ok (cs, ni)) ∧
    (processContextTuple [.strv "in"] = .error (.valueError (unpackTwoMsg 1)) ∧
      unpackTwoMsg 1 ≠ invalidTupleMsg) :=
  ⟨(c9_context_tuple_validation (.strv "in") (.intv (-1))).1 rfl,
    (c9_context_tuple_validation (.strv "out") (.intv 2)).2.1 rfl,
    (c9_context_tuple_validation (.strv "in") (.intv 0)).2.2 [.strv "in"] (by decide)⟩

end Mevis
